import Mathlib

/-!
# ElectroVault Inventory Manager — shallow embedding

A shallow embedding of the core logic of `src/app.py` (a Streamlit
inventory dashboard) together with theorems settling the frozen claims
about it.

Modelling conventions:
* Python numbers are embedded as `Int` (ids, quantities) and `ℚ`
  (prices, monetary sums); Python strings as `String`.
* The persisted JSON file is embedded as a `FileState`: either absent,
  present-but-not-valid-JSON, or present with a parsed `Json` value.
  `json.load` / `json.dump` move between the file and `Json` values.
* The `st.cache_data` cache on `load_data` is an explicit
  `Option Json` field of the `Store` state; `save_data` clears it
  (`load_data.clear()` in the source).
* Python truthiness in `if name and price and qty` is embedded as
  `name ≠ "" ∧ price ≠ 0 ∧ qty ≠ 0`.
* `pandas.sort_values(ascending=False)` is embedded as a stable
  descending insertion sort (numpy uses insertion sort on the small
  arrays this app produces, which is stable).
-/

namespace ElectroVault

/-- One inventory record, mirroring the item dicts of `app.py`
(`{'id': …, 'name': …, 'category': …, 'price': …, 'qty': …}`). -/
structure Item where
  id : Int
  name : String
  category : String
  price : ℚ
  qty : Int
deriving DecidableEq, Repr

/-- The inventory: an ordered list of items (new items are prepended). -/
abbrev Inventory := List Item

/-- `DEFAULT_INVENTORY` from `app.py` lines 128-133. -/
def DEFAULT_INVENTORY : Inventory :=
  [ ⟨1, "GeForce RTX 4090", "GPU", 1599.99, 3⟩,
    ⟨2, "MacBook Pro M2", "Laptop", 2499.00, 8⟩,
    ⟨3, "Samsung S24 Ultra", "Mobile", 1199.50, 12⟩,
    ⟨4, "Sony WH-1000XM5", "Accessory", 348.00, 25⟩ ]

/-! ## JSON values

The dynamic values produced by `json.load` / consumed by `json.dump`. -/

/-- A parsed JSON value (Python's `json` module distinguishes ints and
floats, hence separate `jint` and `jnum` constructors). -/
inductive Json where
  | jint (n : Int)
  | jnum (q : ℚ)
  | jstr (s : String)
  | jarr (xs : List Json)
  | jobj (fields : List (String × Json))

/-- Serialization of one item dict, as `json.dump` sees it. -/
def itemToJson (i : Item) : Json :=
  .jobj [("id", .jint i.id), ("name", .jstr i.name),
         ("category", .jstr i.category), ("price", .jnum i.price),
         ("qty", .jint i.qty)]

/-- Serialization of the whole inventory list. -/
def inventoryToJson (inv : Inventory) : Json :=
  .jarr (inv.map itemToJson)

/-- Field lookup in a JSON object. -/
def lookupField : List (String × Json) → String → Option Json
  | [], _ => none
  | (k, v) :: fs, s => if k = s then some v else lookupField fs s

/-- Reading one item back out of a JSON value: succeeds exactly when the
value is an object carrying the five fields of the Item shape with the
right primitive types. -/
def decodeItem : Json → Option Item
  | .jobj fs =>
    match lookupField fs "id", lookupField fs "name", lookupField fs "category",
          lookupField fs "price", lookupField fs "qty" with
    | some (.jint i), some (.jstr n), some (.jstr c),
      some (.jnum p), some (.jint q) => some ⟨i, n, c, p, q⟩
    | _, _, _, _, _ => none
  | _ => none

/-- Reading a list of items. -/
def decodeItems : List Json → Option (List Item)
  | [] => some []
  | j :: js =>
    match decodeItem j, decodeItems js with
    | some i, some is => some (i :: is)
    | _, _ => none

/-- Reading a whole inventory: the value must be an array of Item-shaped
objects. -/
def decodeInventory : Json → Option Inventory
  | .jarr xs => decodeItems xs
  | _ => none

/-! ## Persistent store -/

/-- The state of the persisted file `electrovault_inventory.json`:
absent, present with text that is not valid JSON, or present with valid
JSON text whose parse is `j`. -/
inductive FileState where
  | absent
  | invalidJson
  | validJson (j : Json)

/-- The storage-side state: the file plus the `st.cache_data` cache of
`load_data`. -/
structure Store where
  file : FileState
  cache : Option Json

/-- Failure mode of `load_data`: the file exists but `json.load` cannot
parse it (the spec's `CorruptDataError`). -/
inductive LoadError where
  | corruptData
deriving DecidableEq, Repr

/-- `load_data` (`app.py` lines 142-148): return the cached value if the
cache is warm; otherwise parse the file if it exists (raising on invalid
JSON, with no validation of the Item shape), or fall back to
`DEFAULT_INVENTORY`; cache the successful result. -/
def load_data (s : Store) : Except LoadError (Json × Store) :=
  match s.cache with
  | some j => .ok (j, s)
  | none =>
    match s.file with
    | .absent => .ok (inventoryToJson DEFAULT_INVENTORY,
                      ⟨s.file, some (inventoryToJson DEFAULT_INVENTORY)⟩)
    | .invalidJson => .error .corruptData
    | .validJson j => .ok (j, ⟨s.file, some j⟩)

/-- `save_data` (`app.py` lines 150-155): overwrite the file with the
serialized inventory and clear the load cache. -/
def save_data (_s : Store) (data : Inventory) : Store :=
  ⟨.validJson (inventoryToJson data), none⟩

/-- `clear_data` (`app.py` lines 423-426): empty the session inventory
and save. -/
def clear_data (s : Store) (_inv : Inventory) : Inventory × Store :=
  ([], save_data s [])

/-- `delete_item` (`app.py` lines 406-411): drop every item whose id
equals the argument, then save (the extra `load_data.clear()` of the
source is a no-op after `save_data`). -/
def delete_item (s : Store) (inv : Inventory) (item_id : Int) : Inventory × Store :=
  let inv' := inv.filter (fun i => i.id ≠ item_id)
  (inv', save_data s inv')

/-! ## Adding an item -/

/-- Failure mode of the add form: the source shows the single fixed
message `st.error("Please fill out all fields.")`, carrying no record of
which field was offending. -/
inductive AddError where
  | fillAllFields
deriving DecidableEq, Repr

/-- Python's `max` over a nonempty list (`max(l)` folds `max` over the
elements; the `[]` case never arises in the source, which guards with
truthiness). -/
def maxIdList : List Int → Int
  | [] => 0
  | x :: xs => xs.foldl max x

/-- The id computation of `app.py` line 387:
`max([item['id'] for item in inventory]) + 1 if inventory else 1`. -/
def new_id (inv : Inventory) : Int :=
  if inv = [] then 1 else maxIdList (inv.map Item.id) + 1

/-- The submitted branch of `add_item_form` (`app.py` lines 384-402):
`if name and price and qty` (Python truthiness), build the new item with
`new_id`, `insert(0, …)` it, and save; otherwise report the fixed error
and leave inventory and store untouched. -/
def add_item_form (s : Store) (inv : Inventory) (name category : String)
    (price : ℚ) (qty : Int) : Except AddError Item × Inventory × Store :=
  if name ≠ "" ∧ price ≠ 0 ∧ qty ≠ 0 then
    let newItem : Item := ⟨new_id inv, name, category, price, qty⟩
    let inv' := newItem :: inv
    (.ok newItem, inv', save_data s inv')
  else
    (.error .fillAllFields, inv, s)

/-! ## Inventory view: search and summary stats -/

/-- Bool-valued prefix test on character lists (Python string comparison
is character-wise equality). -/
def startsWithB : List Char → List Char → Bool
  | [], _ => true
  | _ :: _, [] => false
  | a :: as, b :: bs => a = b && startsWithB as bs

/-- Bool-valued substring test on character lists: Python's `t in s`. -/
def containsB (t : List Char) : List Char → Bool
  | [] => t.isEmpty
  | s@(_ :: rest) => startsWithB t s || containsB t rest

/-- Python's `str.lower()`: lowercase the string character by
character. -/
def lowerChars (s : String) : List Char :=
  s.data.map Char.toLower

/-- The per-item predicate of the search filter (`app.py` lines 182-186):
`term in item['name'].lower() or term in item['category'].lower()`, with
`term` already lowercased. -/
def matchesTerm (t : List Char) (i : Item) : Bool :=
  containsB t (lowerChars i.name) || containsB t (lowerChars i.category)

/-- The filtering logic of `render_inventory_view` (`app.py` lines
180-188): a truthy (non-empty) search term keeps the items matching it
case-insensitively; an empty term keeps the whole inventory. -/
def search (inv : Inventory) (term : String) : Inventory :=
  if term = "" then inv
  else inv.filter (matchesTerm (lowerChars term))

/-- `sum(item['qty'] for item in inventory_data)` (`app.py` line 191). -/
def total_items (inv : Inventory) : Int :=
  inv.foldl (fun acc i => acc + i.qty) 0

/-- The value of one item row, `item['price'] * item['qty']`. -/
def item_value (i : Item) : ℚ := i.price * (i.qty : ℚ)

/-- `sum(item['price'] * item['qty'] for item in inventory_data)`
(`app.py` line 192). -/
def total_value (inv : Inventory) : ℚ :=
  inv.foldl (fun acc i => acc + item_value i) 0

/-- `len([item for item in inventory_data if item['qty'] < 5])`
(`app.py` line 193). -/
def low_stock_count (inv : Inventory) : Nat :=
  (inv.filter (fun i => i.qty < 5)).length

/-! ## Analytics view -/

/-- Insert a category label into a strictly ascending list of labels,
dropping duplicates — the building block for the key set produced by
`df.groupby('category')`, whose groups are sorted ascending by key. -/
def insertCat (c : String) : List String → List String
  | [] => [c]
  | d :: ds =>
    if c = d then d :: ds
    else if c < d then c :: d :: ds
    else d :: insertCat c ds

/-- The distinct categories of the inventory, sorted ascending —
the index of the `groupby('category')` result. -/
def sortedCats (inv : Inventory) : List String :=
  inv.foldr (fun i acc => insertCat i.category acc) []

/-- The summed `total_value` column of one category group:
`df.groupby('category')['total_value'].sum()` at key `c`. -/
def cat_value (inv : Inventory) (c : String) : ℚ :=
  ((inv.filter (fun i => i.category == c)).map item_value).sum

/-- The `groupby('category')['total_value'].sum()` series: one
`(category, summed value)` row per distinct category, index ascending. -/
def groupedStats (inv : Inventory) : List (String × ℚ) :=
  (sortedCats inv).map (fun c => (c, cat_value inv c))

/-- Stable insertion step of a descending sort keyed by `key`:
an element is placed before the first position whose key is not larger,
so equal keys keep their original relative order. -/
def insertDescBy {α : Type} (key : α → ℚ) (x : α) : List α → List α
  | [] => [x]
  | y :: ys => if key x < key y then y :: insertDescBy key x ys else x :: y :: ys

/-- Stable descending sort by `key`: the semantics of
`sort_values(ascending=False)` on the small series this app builds. -/
def sortDescBy {α : Type} (key : α → ℚ) : List α → List α
  | [] => []
  | x :: xs => insertDescBy key x (sortDescBy key xs)

/-- `category_stats` of `render_analytics_view` (`app.py` line 292):
the grouped sums sorted by value descending. -/
def category_stats (inv : Inventory) : List (String × ℚ) :=
  sortDescBy Prod.snd (groupedStats inv)

/-- `total_val = category_stats.sum()` (`app.py` line 293). -/
def grand_total (inv : Inventory) : ℚ :=
  ((category_stats inv).map Prod.snd).sum

/-- The rows rendered by the distribution chart (`app.py` lines
296-298): each category with its value and its percentage
`(val / total_val) * 100 if total_val > 0 else 0`. -/
def category_distribution (inv : Inventory) : List (String × ℚ × ℚ) :=
  (category_stats inv).map (fun p =>
    (p.1, p.2, if 0 < grand_total inv then p.2 / grand_total inv * 100 else 0))

/-- `df.sort_values(by='price', ascending=False).head(n)` (`app.py`
lines 317-318; the source instantiates `n` with 5). -/
def top_expensive (inv : Inventory) (n : Nat) : Inventory :=
  (sortDescBy Item.price inv).take n

/-! ## Helper lemmas -/

theorem le_foldl_max (l : List Int) (a : Int) : a ≤ l.foldl max a := by
  induction l generalizing a with
  | nil => exact le_refl a
  | cons x xs ih => exact le_trans (le_max_left a x) (ih (max a x))

theorem mem_le_foldl_max {x : Int} {l : List Int} (a : Int) (h : x ∈ l) :
    x ≤ l.foldl max a := by
  induction l generalizing a with
  | nil => cases h
  | cons y ys ih =>
    rcases List.mem_cons.mp h with rfl | hmem
    · exact le_trans (le_max_right a x) (le_foldl_max ys (max a x))
    · exact ih (max a y) hmem

theorem mem_le_maxIdList {x : Int} {l : List Int} (h : x ∈ l) : x ≤ maxIdList l := by
  cases l with
  | nil => cases h
  | cons y ys =>
    rcases List.mem_cons.mp h with rfl | hmem
    · exact le_foldl_max ys x
    · exact mem_le_foldl_max y hmem

theorem foldl_max_mem (l : List Int) (a : Int) : l.foldl max a = a ∨ l.foldl max a ∈ l := by
  induction l generalizing a with
  | nil => exact Or.inl rfl
  | cons x xs ih =>
    rcases ih (max a x) with h | h
    · rcases max_choice a x with hm | hm
      · exact Or.inl (by rw [List.foldl_cons, h, hm])
      · refine Or.inr ?_
        rw [List.foldl_cons, h, hm]
        exact List.mem_cons_self x xs
    · exact Or.inr (List.mem_cons_of_mem x (by rw [List.foldl_cons]; exact h))

theorem maxIdList_mem {l : List Int} (h : l ≠ []) : maxIdList l ∈ l := by
  cases l with
  | nil => exact absurd rfl h
  | cons y ys =>
    rcases foldl_max_mem ys y with hm | hm
    · rw [maxIdList, hm]; exact List.mem_cons_self y ys
    · exact List.mem_cons_of_mem y hm

/-- The new id exceeds every id already in the inventory. -/
theorem new_id_gt {inv : Inventory} {j : Item} (hj : j ∈ inv) : j.id < new_id inv := by
  have hne : inv ≠ [] := by rintro rfl; cases hj
  rw [new_id, if_neg hne]
  have : j.id ≤ maxIdList (inv.map Item.id) :=
    mem_le_maxIdList (List.mem_map_of_mem Item.id hj)
  omega

/-! ## C1: adding with valid inputs -/

/-- C1: with a non-empty name, positive price and quantity at least 1,
`add_item_form` succeeds, returns the new item prepended to the original
inventory together with the saved store, the new id is 1 on an empty
inventory and `max(existing ids) + 1` on a non-empty one (strictly above
every existing id and one more than an existing id), and the resulting
inventory is one longer. -/
theorem addItem_valid_spec (s : Store) (inv : Inventory) (name category : String)
    (price : ℚ) (qty : Int) (hn : name ≠ "") (hp : 0 < price) (hq : 1 ≤ qty) :
    add_item_form s inv name category price qty =
      (.ok ⟨new_id inv, name, category, price, qty⟩,
       (⟨new_id inv, name, category, price, qty⟩ : Item) :: inv,
       save_data s ((⟨new_id inv, name, category, price, qty⟩ : Item) :: inv)) ∧
    (inv = [] → new_id inv = 1) ∧
    (∀ j ∈ inv, j.id < new_id inv) ∧
    (inv ≠ [] → ∃ j ∈ inv, new_id inv = j.id + 1) ∧
    ((⟨new_id inv, name, category, price, qty⟩ : Item) :: inv).length = inv.length + 1 := by
  refine ⟨?_, ?_, ?_, ?_, rfl⟩
  · rw [add_item_form, if_pos ⟨hn, ne_of_gt hp, by omega⟩]
  · intro h; rw [new_id, if_pos h]
  · intro j hj; exact new_id_gt hj
  · intro hne
    have hidsne : inv.map Item.id ≠ [] := by
      simpa using hne
    rcases List.mem_map.mp (maxIdList_mem hidsne) with ⟨j, hj, hjid⟩
    exact ⟨j, hj, by rw [new_id, if_neg hne, hjid]⟩

/-- Witness for C1 at a concrete valid input. -/
theorem addItem_valid_spec_witness :
    (("Widget" : String) ≠ "" ∧ (0 : ℚ) < 5 ∧ (1 : Int) ≤ 2) ∧
    add_item_form ⟨.absent, none⟩ [] "Widget" "GPU" 5 2 =
      (.ok ⟨1, "Widget", "GPU", 5, 2⟩, [⟨1, "Widget", "GPU", 5, 2⟩],
       save_data ⟨.absent, none⟩ [⟨1, "Widget", "GPU", 5, 2⟩]) :=
  ⟨⟨by decide, by norm_num, by decide⟩,
   (addItem_valid_spec ⟨.absent, none⟩ [] "Widget" "GPU" 5 2
     (by decide) (by norm_num) (by decide)).1⟩

/-! ## C2: save/load round trip -/

theorem decodeItem_itemToJson (i : Item) : decodeItem (itemToJson i) = some i := rfl

theorem decodeItems_map (l : List Item) : decodeItems (l.map itemToJson) = some l := by
  induction l with
  | nil => rfl
  | cons i is ih => simp [decodeItems, decodeItem_itemToJson, ih]

theorem decodeInventory_inventoryToJson (inv : Inventory) :
    decodeInventory (inventoryToJson inv) = some inv := by
  rw [inventoryToJson, decodeInventory, decodeItems_map]

/-- C2: saving any inventory `X` over any prior store state and then
loading returns exactly the serialized form of `X` (the cache having
been invalidated by the save), and that serialized form decodes back to
`X` itself — same items, same order, same field values. -/
theorem save_load_roundtrip (s : Store) (X : Inventory) :
    load_data (save_data s X) =
      .ok (inventoryToJson X, ⟨.validJson (inventoryToJson X), some (inventoryToJson X)⟩) ∧
    decodeInventory (inventoryToJson X) = some X :=
  ⟨rfl, decodeInventory_inventoryToJson X⟩

/-! ## C3: id uniqueness is preserved -/

/-- C3: starting from an inventory whose ids are pairwise distinct, the
inventories produced by `add_item_form` (for any inputs, valid or not),
`delete_item` and `clear_data` again have pairwise distinct ids. -/
theorem ids_nodup_preserved (s : Store) (inv : Inventory) (name category : String)
    (price : ℚ) (qty : Int) (item_id : Int) (h : (inv.map Item.id).Nodup) :
    (((add_item_form s inv name category price qty).2.1).map Item.id).Nodup ∧
    (((delete_item s inv item_id).1).map Item.id).Nodup ∧
    (((clear_data s inv).1).map Item.id).Nodup := by
  refine ⟨?_, ?_, by simp [clear_data]⟩
  · rw [add_item_form]
    by_cases hc : name ≠ "" ∧ price ≠ 0 ∧ qty ≠ 0
    · rw [if_pos hc]
      simp only [List.map_cons, List.nodup_cons]
      refine ⟨fun hmem => ?_, h⟩
      rcases List.mem_map.mp hmem with ⟨j, hj, hjid⟩
      exact absurd hjid (ne_of_lt (new_id_gt hj))
    · rw [if_neg hc]; exact h
  · rw [delete_item]
    exact h.sublist (List.Sublist.map Item.id (List.filter_sublist inv))

/-- Witness for C3 at a concrete inventory with distinct ids. -/
theorem ids_nodup_preserved_witness :
    (([⟨1, "A", "GPU", 5, 1⟩, ⟨2, "B", "CPU", 3, 2⟩] : Inventory).map Item.id).Nodup ∧
    ((((add_item_form ⟨.absent, none⟩ [⟨1, "A", "GPU", 5, 1⟩, ⟨2, "B", "CPU", 3, 2⟩]
        "C" "Other" 7 1).2.1).map Item.id).Nodup ∧
     (((delete_item ⟨.absent, none⟩ [⟨1, "A", "GPU", 5, 1⟩, ⟨2, "B", "CPU", 3, 2⟩] 1).1).map
        Item.id).Nodup ∧
     (((clear_data ⟨.absent, none⟩ [⟨1, "A", "GPU", 5, 1⟩, ⟨2, "B", "CPU", 3, 2⟩]).1).map
        Item.id).Nodup) :=
  ⟨by decide,
   ids_nodup_preserved ⟨.absent, none⟩ [⟨1, "A", "GPU", 5, 1⟩, ⟨2, "B", "CPU", 3, 2⟩]
     "C" "Other" 7 1 1 (by decide)⟩

/-! ## C4: deleted ids and recycling -/

/-- C4 counterexample: delete the item with id 1 from a one-item
inventory, then add a valid item — the new item is assigned id 1, the
very id just deleted, so ids can be recycled within a session. -/
theorem delete_then_add_recycles_id :
    delete_item ⟨.absent, none⟩ [⟨1, "A", "GPU", 1, 1⟩] 1 =
      ([], ⟨.validJson (inventoryToJson []), none⟩) ∧
    (add_item_form ⟨.validJson (inventoryToJson []), none⟩ [] "B" "GPU" 1 1).1 =
      .ok ⟨1, "B", "GPU", 1, 1⟩ :=
  ⟨rfl, rfl⟩

/-- C4 amended: deleting an id and then adding a valid item yields an id
strictly above the deleted one, provided the deleted id was not the
maximum — that is, some remaining item has a larger id. -/
theorem delete_then_add_id_fresh (s : Store) (inv : Inventory) (d : Int)
    (name category : String) (price : ℚ) (qty : Int)
    (hn : name ≠ "") (hp : 0 < price) (hq : 1 ≤ qty)
    (hmax : ∃ j ∈ inv, d < j.id) :
    ∃ it : Item,
      (add_item_form (delete_item s inv d).2 (delete_item s inv d).1
        name category price qty).1 = .ok it ∧ d < it.id := by
  rcases hmax with ⟨j, hj, hd⟩
  have hj' : j ∈ (delete_item s inv d).1 := by
    simp only [delete_item]
    exact List.mem_filter.mpr ⟨hj, by simpa using ne_of_gt hd⟩
  refine ⟨⟨new_id (delete_item s inv d).1, name, category, price, qty⟩, ?_, ?_⟩
  · rw [add_item_form, if_pos ⟨hn, ne_of_gt hp, by omega⟩]
  · exact lt_trans hd (new_id_gt hj')

/-- Witness for the amended C4 at a concrete non-maximal deleted id. -/
theorem delete_then_add_id_fresh_witness :
    (∃ j ∈ ([⟨2, "B", "CPU", 2, 1⟩, ⟨1, "A", "GPU", 1, 1⟩] : Inventory), (1 : Int) < j.id) ∧
    (∃ it : Item,
      (add_item_form
        (delete_item ⟨.absent, none⟩ [⟨2, "B", "CPU", 2, 1⟩, ⟨1, "A", "GPU", 1, 1⟩] 1).2
        (delete_item ⟨.absent, none⟩ [⟨2, "B", "CPU", 2, 1⟩, ⟨1, "A", "GPU", 1, 1⟩] 1).1
        "C" "Other" 5 1).1 = .ok it ∧ (1 : Int) < it.id) :=
  ⟨⟨⟨2, "B", "CPU", 2, 1⟩, List.mem_cons_self _ _, by decide⟩,
   delete_then_add_id_fresh ⟨.absent, none⟩ [⟨2, "B", "CPU", 2, 1⟩, ⟨1, "A", "GPU", 1, 1⟩]
     1 "C" "Other" 5 1 (by decide) (by norm_num) (by decide)
     ⟨⟨2, "B", "CPU", 2, 1⟩, List.mem_cons_self _ _, by decide⟩⟩

/-! ## C5: load semantics -/

/-- C5 counterexample: a file holding the valid JSON value `5` — which
is not a sequence of Item-shaped records — is returned by `load_data`
as-is instead of failing with `CorruptDataError`: the loader performs no
shape validation. -/
theorem load_no_shape_validation :
    load_data ⟨.validJson (.jnum 5), none⟩ =
      .ok (.jnum 5, ⟨.validJson (.jnum 5), some (.jnum 5)⟩) ∧
    decodeInventory (.jnum 5) = none :=
  ⟨rfl, rfl⟩

/-- C5 amended: `load_data` returns whatever valid JSON the file holds
(with no validation of the Item shape), fails with `CorruptDataError`
exactly when the file text is not valid JSON, returns the built-in
default set of 4 sample items when the file is absent, and after
`clear_data` a load yields the empty inventory, not the defaults. -/
theorem load_data_spec (s : Store) (j : Json) (inv : Inventory) :
    load_data ⟨.validJson j, none⟩ = .ok (j, ⟨.validJson j, some j⟩) ∧
    load_data ⟨.invalidJson, none⟩ = .error .corruptData ∧
    load_data ⟨.absent, none⟩ =
      .ok (inventoryToJson DEFAULT_INVENTORY,
           ⟨.absent, some (inventoryToJson DEFAULT_INVENTORY)⟩) ∧
    decodeInventory (inventoryToJson DEFAULT_INVENTORY) = some DEFAULT_INVENTORY ∧
    DEFAULT_INVENTORY.length = 4 ∧
    (clear_data s inv).1 = [] ∧
    load_data (clear_data s inv).2 =
      .ok (inventoryToJson [],
           ⟨.validJson (inventoryToJson []), some (inventoryToJson [])⟩) ∧
    decodeInventory (inventoryToJson []) = some [] :=
  ⟨rfl, rfl, rfl, decodeInventory_inventoryToJson DEFAULT_INVENTORY, rfl, rfl, rfl, rfl⟩

/-! ## C6: add-time validation -/

/-- C6 counterexample: an add request with price −1 — a price that is
not `> 0` — is accepted by the form logic (Python truthiness treats any
non-zero number as valid) and mutates the inventory, instead of failing
with a validation error. -/
theorem add_accepts_nonpositive_price :
    add_item_form ⟨.absent, none⟩ [] "Widget" "GPU" (-1) 1 =
      (.ok ⟨1, "Widget", "GPU", -1, 1⟩, [⟨1, "Widget", "GPU", -1, 1⟩],
       save_data ⟨.absent, none⟩ [⟨1, "Widget", "GPU", -1, 1⟩]) ∧
    ¬ ((0 : ℚ) < -1) :=
  ⟨rfl, by norm_num⟩

/-- C6 amended: the form rejects a request exactly by Python truthiness
— empty name, price equal to 0, or qty equal to 0 (the form widgets
separately floor price at 0.01 and qty at 1, so the price/qty cases
cannot arise through the UI) — and then returns the one fixed error
(carrying no record of the offending fields) while leaving the
inventory and the store completely unchanged. -/
theorem add_invalid_rejected (s : Store) (inv : Inventory) (name category : String)
    (price : ℚ) (qty : Int) (h : name = "" ∨ price = 0 ∨ qty = 0) :
    add_item_form s inv name category price qty = (.error .fillAllFields, inv, s) := by
  rw [add_item_form, if_neg]
  rintro ⟨hn, hp, hq⟩
  rcases h with h | h | h
  exacts [hn h, hp h, hq h]

/-- Witness for the amended C6 at an empty name. -/
theorem add_invalid_rejected_witness :
    (("" : String) = "" ∨ (5 : ℚ) = 0 ∨ (1 : Int) = 0) ∧
    add_item_form ⟨.absent, none⟩ [] "" "GPU" 5 1 =
      (.error .fillAllFields, [], ⟨.absent, none⟩) :=
  ⟨Or.inl rfl, add_invalid_rejected ⟨.absent, none⟩ [] "" "GPU" 5 1 (Or.inl rfl)⟩

/-! ## C7: summary statistics -/

/-- The claim's wording for totalItems: the sum of `qty` over all
items. -/
def specTotalItems : Inventory → Int
  | [] => 0
  | i :: is => i.qty + specTotalItems is

/-- The claim's wording for totalValue: the sum of `price × qty` over
all items. -/
def specTotalValue : Inventory → ℚ
  | [] => 0
  | i :: is => i.price * (i.qty : ℚ) + specTotalValue is

/-- The claim's wording for lowStockCount: the number of items with
`qty < 5`. -/
def specLowStockCount : Inventory → Nat
  | [] => 0
  | i :: is => (if i.qty < 5 then 1 else 0) + specLowStockCount is

theorem foldl_add_qty (l : Inventory) (a : Int) :
    l.foldl (fun acc i => acc + i.qty) a = a + specTotalItems l := by
  induction l generalizing a with
  | nil => simp [specTotalItems]
  | cons i is ih => rw [List.foldl_cons, ih, specTotalItems]; ring

theorem foldl_add_value (l : Inventory) (a : ℚ) :
    l.foldl (fun acc i => acc + item_value i) a = a + specTotalValue l := by
  induction l generalizing a with
  | nil => simp [specTotalValue]
  | cons i is ih => rw [List.foldl_cons, ih, specTotalValue, item_value]; ring

/-- C7: the three statistics computed by the inventory view are exactly
the sum of `qty`, the sum of `price × qty` and the count of items with
`qty < 5` over the whole inventory (they are pure functions of it), and
on the empty inventory all three are zero. -/
theorem computeSummary_spec (inv : Inventory) :
    total_items inv = specTotalItems inv ∧
    total_value inv = specTotalValue inv ∧
    low_stock_count inv = specLowStockCount inv ∧
    total_items [] = 0 ∧ total_value [] = 0 ∧ low_stock_count [] = 0 := by
  refine ⟨?_, ?_, ?_, rfl, rfl, rfl⟩
  · rw [total_items, foldl_add_qty]; ring
  · rw [total_value, foldl_add_value]; ring
  · induction inv with
    | nil => rfl
    | cons i is ih =>
      rw [low_stock_count, List.filter_cons] at *
      by_cases h : i.qty < 5 <;> simp [h, specLowStockCount, ih, Nat.add_comm]

/-! ## C10: search -/

theorem startsWithB_iff (t s : List Char) : startsWithB t s = true ↔ t <+: s := by
  induction t generalizing s with
  | nil => simp [startsWithB]
  | cons a as ih =>
    cases s with
    | nil =>
      simp only [startsWithB, Bool.false_eq_true, false_iff]
      intro h
      exact absurd (List.eq_nil_of_prefix_nil h) (by simp)
    | cons b bs => simp [startsWithB, ih, List.cons_prefix_cons]

theorem containsB_iff (t s : List Char) : containsB t s = true ↔ t <:+: s := by
  induction s with
  | nil =>
    simp only [containsB, List.isEmpty_iff]
    constructor
    · rintro rfl; exact ⟨[], [], rfl⟩
    · intro h; exact List.eq_nil_of_infix_nil h
  | cons b bs ih =>
    rw [containsB, Bool.or_eq_true, startsWithB_iff, ih, List.infix_cons_iff]

/-- The claim's matching predicate: the term is a case-insensitive
substring of the item's name or of its category. -/
def SpecMatch (term : String) (i : Item) : Prop :=
  lowerChars term <:+: lowerChars i.name ∨ lowerChars term <:+: lowerChars i.category

theorem matchesTerm_iff (t : List Char) (i : Item) :
    matchesTerm t i = true ↔ (t <:+: lowerChars i.name ∨ t <:+: lowerChars i.category) := by
  rw [matchesTerm, Bool.or_eq_true, containsB_iff, containsB_iff]

/-- C10: searching with the empty term returns the full inventory
unchanged; any search result is a sublist of the inventory (so the
relative order of the source is preserved); and an item is in the
result exactly when it is in the inventory and the term occurs
case-insensitively inside its name or its category. -/
theorem search_spec (inv : Inventory) (term : String) :
    search inv "" = inv ∧
    (search inv term).Sublist inv ∧
    (∀ i : Item, i ∈ search inv term ↔ i ∈ inv ∧ SpecMatch term i) := by
  refine ⟨by rw [search, if_pos rfl], ?_, ?_⟩
  · rw [search]
    by_cases h : term = ""
    · rw [if_pos h]
    · rw [if_neg h]; exact List.filter_sublist inv
  · intro i
    rw [search]
    by_cases h : term = ""
    · subst h
      rw [if_pos rfl]
      have hmatch : SpecMatch "" i := Or.inl ⟨[], lowerChars i.name, rfl⟩
      exact ⟨fun hi => ⟨hi, hmatch⟩, And.left⟩
    · rw [if_neg h, List.mem_filter, matchesTerm_iff]
      exact Iff.rfl

/-! ## Generic facts about the stable descending sort -/

theorem mem_insertDescBy {α : Type} (key : α → ℚ) (x y : α) (l : List α) :
    y ∈ insertDescBy key x l ↔ y = x ∨ y ∈ l := by
  induction l with
  | nil => simp [insertDescBy]
  | cons z zs ih =>
    rw [insertDescBy]
    by_cases h : key x < key z
    · rw [if_pos h]
      simp only [List.mem_cons, ih]
      tauto
    · rw [if_neg h]
      simp only [List.mem_cons]

theorem perm_insertDescBy {α : Type} (key : α → ℚ) (x : α) (l : List α) :
    (insertDescBy key x l).Perm (x :: l) := by
  induction l with
  | nil => exact List.Perm.refl _
  | cons z zs ih =>
    rw [insertDescBy]
    by_cases h : key x < key z
    · rw [if_pos h]
      exact (ih.cons z).trans (List.Perm.swap x z zs)
    · rw [if_neg h]

theorem perm_sortDescBy {α : Type} (key : α → ℚ) (l : List α) :
    (sortDescBy key l).Perm l := by
  induction l with
  | nil => exact List.Perm.refl _
  | cons x xs ih => exact (perm_insertDescBy key x _).trans (ih.cons x)

theorem pairwise_insertDescBy {α : Type} (key : α → ℚ) (S : α → α → Prop)
    (x : α) (l : List α)
    (hl : l.Pairwise (fun a b => key b < key a ∨ (key a = key b ∧ S a b)))
    (hx : ∀ z ∈ l, S x z) :
    (insertDescBy key x l).Pairwise
      (fun a b => key b < key a ∨ (key a = key b ∧ S a b)) := by
  induction l with
  | nil => exact List.pairwise_singleton _ x
  | cons z zs ih =>
    rw [List.pairwise_cons] at hl
    rw [insertDescBy]
    by_cases h : key x < key z
    · rw [if_pos h]
      refine List.pairwise_cons.mpr
        ⟨?_, ih hl.2 (fun w hw => hx w (List.mem_cons_of_mem z hw))⟩
      intro w hw
      rcases (mem_insertDescBy key x w zs).mp hw with rfl | hwz
      · exact Or.inl h
      · exact hl.1 w hwz
    · rw [if_neg h]
      have hzx : key z ≤ key x := le_of_not_lt h
      refine List.pairwise_cons.mpr ⟨?_, List.pairwise_cons.mpr hl⟩
      intro w hw
      rcases List.mem_cons.mp hw with rfl | hwzs
      · rcases lt_or_eq_of_le hzx with hlt | heq
        · exact Or.inl hlt
        · exact Or.inr ⟨heq.symm, hx w (List.mem_cons_self w zs)⟩
      · rcases hl.1 w hwzs with hlt | ⟨heq, _⟩
        · exact Or.inl (lt_of_lt_of_le hlt hzx)
        · rcases lt_or_eq_of_le hzx with hlt2 | heq2
          · exact Or.inl (by rw [← heq]; exact hlt2)
          · exact Or.inr ⟨heq2.symm.trans heq, hx w (List.mem_cons_of_mem z hwzs)⟩

theorem pairwise_sortDescBy {α : Type} (key : α → ℚ) (S : α → α → Prop)
    (l : List α) (hl : l.Pairwise S) :
    (sortDescBy key l).Pairwise
      (fun a b => key b < key a ∨ (key a = key b ∧ S a b)) := by
  induction l with
  | nil => exact List.Pairwise.nil
  | cons x xs ih =>
    rw [List.pairwise_cons] at hl
    exact pairwise_insertDescBy key S x _ (ih hl.2)
      (fun z hz => hl.1 z ((perm_sortDescBy key xs).mem_iff.mp hz))

theorem map_snd_insertDescBy {α β : Type} (key : α → ℚ) (x : β × α)
    (l : List (β × α)) :
    (insertDescBy (fun p => key p.2) x l).map Prod.snd =
      insertDescBy key x.2 (l.map Prod.snd) := by
  induction l with
  | nil => rfl
  | cons z zs ih =>
    rw [insertDescBy, List.map_cons, insertDescBy]
    by_cases h : key x.2 < key z.2
    · rw [if_pos h, if_pos h, List.map_cons, ih]
    · rw [if_neg h, if_neg h, List.map_cons, List.map_cons]

theorem map_snd_sortDescBy {α β : Type} (key : α → ℚ) (l : List (β × α)) :
    (sortDescBy (fun p => key p.2) l).map Prod.snd =
      sortDescBy key (l.map Prod.snd) := by
  induction l with
  | nil => rfl
  | cons x xs ih => rw [sortDescBy, List.map_cons, sortDescBy, map_snd_insertDescBy, ih]

theorem le_fst_of_mem_enumFrom {α : Type} {w : Nat × α} {l : List α} {n : Nat}
    (h : w ∈ l.enumFrom n) : n ≤ w.1 := by
  induction l generalizing n with
  | nil => cases h
  | cons x xs ih =>
    rw [List.enumFrom] at h
    rcases List.mem_cons.mp h with rfl | h2
    · exact le_refl n
    · exact le_trans (Nat.le_succ n) (ih h2)

theorem pairwise_fst_lt_enumFrom {α : Type} (l : List α) (n : Nat) :
    (l.enumFrom n).Pairwise (fun a b => a.1 < b.1) := by
  induction l generalizing n with
  | nil => exact List.Pairwise.nil
  | cons x xs ih =>
    rw [List.enumFrom]
    refine List.pairwise_cons.mpr ⟨?_, ih (n + 1)⟩
    intro w hw
    have := le_fst_of_mem_enumFrom hw
    omega

/-! ## C9: most expensive assets -/

/-- C9 counterexample: starting from an empty vault, add item "A" and
then item "B" with the same price. The inventory after the two adds is
`[B, A]` (adds prepend), and `top_expensive` — a stable descending sort
— lists B, the most recently inserted item, first among the price tie,
not the earliest-inserted item A. -/
theorem top_expensive_ties_recent_first :
    (add_item_form ⟨.absent, none⟩ [] "A" "GPU" 5 1).2.1 = [⟨1, "A", "GPU", 5, 1⟩] ∧
    (add_item_form (save_data ⟨.absent, none⟩ [⟨1, "A", "GPU", 5, 1⟩])
        [⟨1, "A", "GPU", 5, 1⟩] "B" "GPU" 5 1).2.1 =
      [⟨2, "B", "GPU", 5, 1⟩, ⟨1, "A", "GPU", 5, 1⟩] ∧
    top_expensive [⟨2, "B", "GPU", 5, 1⟩, ⟨1, "A", "GPU", 5, 1⟩] 5 =
      [⟨2, "B", "GPU", 5, 1⟩, ⟨1, "A", "GPU", 5, 1⟩] :=
  ⟨rfl, rfl, rfl⟩

/-- C9 amended: `top_expensive` returns at most `n` items, a
permutation-respecting selection from the inventory sorted by price
descending, with price ties kept in the inventory's own sequence order
(a stable sort); since adds prepend, among equal prices the most
recently inserted item comes first, not the earliest-inserted one. The
enumerated form makes the stability explicit: position indices are
strictly increasing along every tie. -/
theorem top_expensive_spec (inv : Inventory) (n : Nat) :
    (top_expensive inv n).length ≤ n ∧
    (sortDescBy Item.price inv).Perm inv ∧
    (top_expensive inv n).Pairwise (fun a b => b.price ≤ a.price) ∧
    top_expensive inv n =
      ((sortDescBy (fun p => Item.price p.2) inv.enum).take n).map Prod.snd ∧
    (sortDescBy (fun p => Item.price p.2) inv.enum).Pairwise
      (fun a b => b.2.price < a.2.price ∨ (a.2.price = b.2.price ∧ a.1 < b.1)) := by
  have hpair := pairwise_sortDescBy (fun p => Item.price p.2)
    (fun a b => a.1 < b.1) inv.enum (pairwise_fst_lt_enumFrom inv 0)
  refine ⟨?_, perm_sortDescBy Item.price inv, ?_, ?_, hpair⟩
  · rw [top_expensive, List.length_take]
    exact min_le_left n _
  · have hfull : (sortDescBy Item.price inv).Pairwise (fun a b => b.price ≤ a.price) := by
      have := pairwise_sortDescBy Item.price (fun _ _ => True) inv
        (List.pairwise_iff_forall_sublist.mpr (fun _ => trivial))
      refine this.imp ?_
      rintro a b (hlt | ⟨heq, _⟩)
      · exact le_of_lt hlt
      · exact le_of_eq heq.symm
    exact hfull.sublist (List.take_sublist n _)
  · rw [top_expensive, List.map_take, map_snd_sortDescBy, List.enum_map_snd]

/-! ## C8: category value distribution -/

theorem mem_insertCat (c x : String) (l : List String) :
    x ∈ insertCat c l ↔ x = c ∨ x ∈ l := by
  induction l with
  | nil => simp [insertCat]
  | cons d ds ih =>
    rw [insertCat]
    by_cases h1 : c = d
    · subst h1
      rw [if_pos rfl]
      simp only [List.mem_cons]
      tauto
    · rw [if_neg h1]
      by_cases h2 : c < d
      · rw [if_pos h2]
        simp only [List.mem_cons]
      · rw [if_neg h2]
        simp only [List.mem_cons, ih]
        tauto

theorem pairwise_insertCat (c : String) (l : List String)
    (hl : l.Pairwise (· < ·)) : (insertCat c l).Pairwise (· < ·) := by
  induction l with
  | nil => exact List.pairwise_singleton _ c
  | cons d ds ih =>
    rw [List.pairwise_cons] at hl
    rw [insertCat]
    by_cases h1 : c = d
    · rw [if_pos h1]
      exact List.pairwise_cons.mpr hl
    · rw [if_neg h1]
      by_cases h2 : c < d
      · rw [if_pos h2]
        refine List.pairwise_cons.mpr ⟨?_, List.pairwise_cons.mpr hl⟩
        intro w hw
        rcases List.mem_cons.mp hw with rfl | hwds
        · exact h2
        · exact lt_trans h2 (hl.1 w hwds)
      · rw [if_neg h2]
        have hdc : d < c := lt_of_le_of_ne (le_of_not_lt h2) (Ne.symm h1)
        refine List.pairwise_cons.mpr ⟨?_, ih hl.2⟩
        intro w hw
        rcases (mem_insertCat c w ds).mp hw with rfl | hwds
        · exact hdc
        · exact hl.1 w hwds

theorem pairwise_sortedCats (inv : Inventory) : (sortedCats inv).Pairwise (· < ·) := by
  induction inv with
  | nil => exact List.Pairwise.nil
  | cons i is ih => exact pairwise_insertCat i.category (sortedCats is) ih

theorem nodup_sortedCats (inv : Inventory) : (sortedCats inv).Nodup :=
  (pairwise_sortedCats inv).imp (fun h => ne_of_lt h)

theorem mem_sortedCats (inv : Inventory) (c : String) :
    c ∈ sortedCats inv ↔ ∃ i ∈ inv, i.category = c := by
  induction inv with
  | nil => simp [sortedCats]
  | cons i is ih =>
    show c ∈ insertCat i.category (sortedCats is) ↔ _
    rw [mem_insertCat, ih]
    constructor
    · rintro (rfl | ⟨j, hj, hjc⟩)
      · exact ⟨i, List.mem_cons_self i is, rfl⟩
      · exact ⟨j, List.mem_cons_of_mem i hj, hjc⟩
    · rintro ⟨j, hj, hjc⟩
      rcases List.mem_cons.mp hj with rfl | hj2
      · exact Or.inl hjc.symm
      · exact Or.inr ⟨j, hj2, hjc⟩

theorem cat_value_cons (i : Item) (is : Inventory) (c : String) :
    cat_value (i :: is) c =
      (if i.category = c then item_value i else 0) + cat_value is c := by
  rw [cat_value, cat_value, List.filter_cons]
  by_cases h : i.category = c
  · simp [h]
  · simp [h]

theorem sum_map_ite_zero (ds : List String) (c : String) (v : ℚ) (h : c ∉ ds) :
    (ds.map (fun e => if c = e then v else 0)).sum = 0 := by
  induction ds with
  | nil => rfl
  | cons e es ih =>
    have hce : c ≠ e := fun hc => h (hc ▸ List.mem_cons_self e es)
    rw [List.map_cons, List.sum_cons, if_neg hce, zero_add]
    exact ih (fun hc => h (List.mem_cons_of_mem e hc))

theorem sum_if_mem (cats : List String) (c : String) (v : ℚ)
    (hnd : cats.Nodup) (hc : c ∈ cats) :
    (cats.map (fun d => if c = d then v else 0)).sum = v := by
  induction cats with
  | nil => cases hc
  | cons d ds ih =>
    rw [List.nodup_cons] at hnd
    rcases List.mem_cons.mp hc with rfl | hds
    · rw [List.map_cons, List.sum_cons, if_pos rfl,
        sum_map_ite_zero ds c v hnd.1, add_zero]
    · have hcd : c ≠ d := fun hcd => hnd.1 (hcd ▸ hds)
      rw [List.map_cons, List.sum_cons, if_neg hcd, zero_add]
      exact ih hnd.2 hds

theorem sum_map_add_q {α : Type} (l : List α) (f g : α → ℚ) :
    (l.map (fun x => f x + g x)).sum = (l.map f).sum + (l.map g).sum := by
  induction l with
  | nil => simp
  | cons x xs ih =>
    rw [List.map_cons, List.sum_cons, ih, List.map_cons, List.sum_cons,
      List.map_cons, List.sum_cons]
    ring

/-- The per-category sums partition the total: summing the grouped
values over a duplicate-free covering list of categories gives the sum
of `price × qty` over the whole inventory. -/
theorem sum_cat_value (cats : List String) (inv : Inventory)
    (hnd : cats.Nodup) (hcov : ∀ i ∈ inv, i.category ∈ cats) :
    (cats.map (cat_value inv)).sum = (inv.map item_value).sum := by
  induction inv with
  | nil =>
    have : cats.map (cat_value []) = cats.map (fun _ => (0 : ℚ)) :=
      List.map_congr_left (fun c _ => by rw [cat_value]; rfl)
    rw [this]
    simp
  | cons i is ih =>
    have hstep : cats.map (cat_value (i :: is)) =
        cats.map (fun c => (if i.category = c then item_value i else 0) + cat_value is c) :=
      List.map_congr_left (fun c _ => cat_value_cons i is c)
    rw [hstep, sum_map_add_q,
      sum_if_mem cats i.category (item_value i) hnd (hcov i (List.mem_cons_self i is)),
      ih (fun j hj => hcov j (List.mem_cons_of_mem i hj)),
      List.map_cons, List.sum_cons]

theorem sum_item_value_eq_spec (inv : Inventory) :
    (inv.map item_value).sum = specTotalValue inv := by
  induction inv with
  | nil => rfl
  | cons i is ih =>
    rw [List.map_cons, List.sum_cons, ih, specTotalValue, item_value]

theorem total_value_eq_sum (inv : Inventory) :
    total_value inv = (inv.map item_value).sum := by
  rw [total_value, foldl_add_value, zero_add, sum_item_value_eq_spec]

/-- The denominator used by the chart equals the glossary's grand
total: the sum of `price × qty` over the whole inventory. -/
theorem grand_total_eq (inv : Inventory) : grand_total inv = total_value inv := by
  rw [grand_total, category_stats, total_value_eq_sum]
  have hperm : ((sortDescBy Prod.snd (groupedStats inv)).map Prod.snd).Perm
      ((groupedStats inv).map Prod.snd) :=
    (perm_sortDescBy Prod.snd (groupedStats inv)).map Prod.snd
  rw [hperm.sum_eq, groupedStats, List.map_map]
  exact sum_cat_value (sortedCats inv) inv (nodup_sortedCats inv)
    (fun i hi => (mem_sortedCats inv i.category).mpr ⟨i, hi, rfl⟩)

/-- C8: the distribution rows carry one entry per distinct category of
the inventory (no duplicates, and a category appears exactly when some
item has it), are ordered by category value descending with ties broken
by category name ascending, each row's value is the summed
`price × qty` of its category with the percentage computed from the
grand total, and every percentage is 0 when the grand total is 0. -/
theorem categoryValueDistribution_spec (inv : Inventory) :
    ((category_distribution inv).map Prod.fst).Nodup ∧
    (∀ c : String,
      c ∈ (category_distribution inv).map Prod.fst ↔ ∃ i ∈ inv, i.category = c) ∧
    (category_distribution inv).Pairwise
      (fun a b => b.2.1 < a.2.1 ∨ (a.2.1 = b.2.1 ∧ a.1 < b.1)) ∧
    (∀ e ∈ category_distribution inv, e.2.1 = cat_value inv e.1 ∧
      e.2.2 = (if 0 < grand_total inv then e.2.1 / grand_total inv * 100 else 0)) ∧
    (total_value inv = 0 → ∀ e ∈ category_distribution inv, e.2.2 = 0) := by
  have hfst : (category_distribution inv).map Prod.fst =
      (category_stats inv).map Prod.fst := by
    rw [category_distribution, List.map_map]; rfl
  have hperm : ((category_stats inv).map Prod.fst).Perm (sortedCats inv) := by
    have h1 : ((category_stats inv).map Prod.fst).Perm
        ((groupedStats inv).map Prod.fst) :=
      (perm_sortDescBy Prod.snd (groupedStats inv)).map Prod.fst
    have h2 : (groupedStats inv).map Prod.fst = sortedCats inv := by
      rw [groupedStats, List.map_map]
      exact List.map_id (sortedCats inv)
    rw [h2] at h1
    exact h1
  have hentry : ∀ p ∈ category_stats inv, p.2 = cat_value inv p.1 := by
    intro p hp
    have hp2 : p ∈ groupedStats inv :=
      (perm_sortDescBy Prod.snd (groupedStats inv)).mem_iff.mp hp
    rcases List.mem_map.mp hp2 with ⟨c, _, rfl⟩
    rfl
  refine ⟨?_, ?_, ?_, ?_, ?_⟩
  · rw [hfst]
    exact hperm.nodup_iff.mpr (nodup_sortedCats inv)
  · intro c
    rw [hfst, hperm.mem_iff, mem_sortedCats]
  · have hgrp : (groupedStats inv).Pairwise (fun a b => a.1 < b.1) := by
      rw [groupedStats, List.pairwise_map]
      exact pairwise_sortedCats inv
    have hsorted := pairwise_sortDescBy Prod.snd (fun a b => a.1 < b.1)
      (groupedStats inv) hgrp
    rw [category_distribution, List.pairwise_map]
    exact hsorted.imp (fun h => h)
  · intro e he
    rcases List.mem_map.mp he with ⟨p, hp, rfl⟩
    exact ⟨hentry p hp, rfl⟩
  · intro hz e he
    rcases List.mem_map.mp he with ⟨p, hp, rfl⟩
    have : ¬ 0 < grand_total inv := by
      rw [grand_total_eq, hz]
      exact lt_irrefl 0
    simp only [if_neg this]

end ElectroVault
